import Mathlib

/-!
Verification of the stack-graphs repository specification.

This file shallowly embeds the parts of the repository needed for the
frozen claims:

* `stack-graphs/src/stats.rs` — `FrequencyDistribution` with its
  `total`, `unique`, `frequencies`, `quantiles` operations and the two
  `AddAssign` implementations.  The Rust `HashMap<T, usize>` is modelled
  as an association list with distinct keys (the well-formedness
  predicate `Wf`); `quantiles` sorts the entries by key exactly as
  `sorted_by_key` does, so the representation order is irrelevant for
  every well-formed distribution.  The limit
  `((total as f64 * k as f64) / q as f64).round() as usize` is modelled
  by exact rational rounding (round half away from zero), which agrees
  with the `f64` computation on all inputs whose intermediate values are
  exactly representable (in particular on every concrete input used
  below).

* `tree-sitter-stack-graphs/src/cli/query.rs` — the control flow of
  `Querier::definitions` (file status check, stitching per reference
  node, cancellation checks, shadow filtering, resolution of definition
  spans) and the statistics rendering of `QueryArgs::print_stats`. The
  collaborators that live outside the sources at hand
  (`ForwardPartialPathStitcher`, `SQLiteReader`, `CancellationFlag`,
  `PartialPath::shadows`) are modelled from the specification, as noted
  on each definition.
-/

namespace StackGraphs

/-! ## stats.rs : FrequencyDistribution -/

/-- Model of `FrequencyDistribution<T>`: the `values: HashMap<T, usize>` field is
modelled as an association list of `(value, count)` entries together
with the stored `total` field. -/
structure FrequencyDistribution (T : Type) where
  values : List (T × Nat)
  total : Nat
deriving DecidableEq, Repr

namespace FrequencyDistribution

/-- The `FrequencyDistribution::default()` value: empty map and zero total. -/
def emptyDist {T : Type} : FrequencyDistribution T := ⟨[], 0⟩

/-- Add `c` to the entry of key `v` in an association list, inserting
the entry if absent (`self.values.entry(v).or_default() += c`). -/
def bump {T : Type} [DecidableEq T] : List (T × Nat) → T → Nat → List (T × Nat)
  | [], v, c => [(v, c)]
  | (w, d) :: rest, v, c =>
      if w = v then (w, d + c) :: rest else (w, d) :: bump rest v c

/-- The `AddAssign<T>` impl: `*self.values.entry(rhs).or_default() += 1; self.total += 1;` -/
def addValue {T : Type} [DecidableEq T] (d : FrequencyDistribution T) (v : T) :
    FrequencyDistribution T :=
  ⟨bump d.values v 1, d.total + 1⟩

/-- The `AddAssign<&Self>` impl: for each entry of `rhs`, add its count to the
matching entry of `self`; then `self.total += rhs.total`. -/
def mergeFrom {T : Type} [DecidableEq T] (d e : FrequencyDistribution T) :
    FrequencyDistribution T :=
  ⟨e.values.foldl (fun acc p => bump acc p.1 p.2) d.values, d.total + e.total⟩

/-- The `unique()` accessor returns `self.values.len()`. -/
def unique {T : Type} (d : FrequencyDistribution T) : Nat := d.values.length

/-- The `frequencies()` operation: fold every per-value count into a fresh
distribution using the single-value `AddAssign`. -/
def frequencies {T : Type} (d : FrequencyDistribution T) :
    FrequencyDistribution Nat :=
  d.values.foldl (fun fs p => fs.addValue p.2) emptyDist

/-- Count of a value: the count stored in the first entry with that key
(0 if absent). -/
def lookupCount {T : Type} [DecidableEq T] : List (T × Nat) → T → Nat
  | [], _ => 0
  | (v, c) :: rest, w => if v = w then c else lookupCount rest w

/-- The count recorded for value `w`. -/
def count {T : Type} [DecidableEq T] (d : FrequencyDistribution T) (w : T) : Nat :=
  lookupCount d.values w

end FrequencyDistribution

/-- Sum of the counts of an association list. -/
def sumCounts {T : Type} (l : List (T × Nat)) : Nat := (l.map (fun p => p.2)).sum

/-- The keys of an association list. -/
def keysOf {T : Type} (l : List (T × Nat)) : List T := l.map Prod.fst

/-- Model of `self.values.iter().sorted_by_key(|e| e.0)`: the entries sorted by
key in ascending order. -/
def sortKeys {T : Type} [LinearOrder T] (l : List (T × Nat)) : List (T × Nat) :=
  l.insertionSort (fun a b => a.1 ≤ b.1)

/-- The limit `((total as f64 * k as f64) / q as f64).round() as usize`,
computed exactly over the rationals: round-half-away-from-zero of
`total·k/q` is `⌊(2·total·k + q) / (2·q)⌋`. -/
def roundLimit (total k q : Nat) : Nat := (2 * total * k + q) / (2 * q)

/-- The inner `while total_count < limit` loop of `quantiles`: keep
consuming entries from the sorted iterator while the running cumulative
count is below the limit, remembering the last value seen.  Returns the
remaining iterator, the cumulative count, and the last value. -/
def walk {T : Type} (lim : Nat) : List (T × Nat) → Nat → T → List (T × Nat) × Nat × T
  | [], tc, lv => ([], tc, lv)
  | (v, c) :: rest, tc, lv =>
      if tc < lim then walk lim rest (tc + c) v else ((v, c) :: rest, tc, lv)

/-- The `for k in 1..=q` loop of `quantiles`, with `n` the number of
remaining iterations (the current `k` is `q - n + 1`). -/
def quantAux {T : Type} (t q : Nat) : Nat → List (T × Nat) → Nat → T → List T
  | 0, _, _, _ => []
  | n + 1, it, tc, lv =>
      match walk (roundLimit t (q - n) q) it tc lv with
      | (it2, tc2, lv2) => lv2 :: quantAux t q n it2 tc2 lv2

/-- Model of `FrequencyDistribution::quantiles(q)`. -/
def FrequencyDistribution.quantiles {T : Type} [LinearOrder T]
    (d : FrequencyDistribution T) (q : Nat) : List T :=
  if q = 0 ∨ d.total = 0 then []
  else
    match sortKeys d.values with
    | [] => []
    | (v, c) :: rest => v :: quantAux d.total q q rest c v

/-- Well-formedness of a distribution, as maintained by `HashMap`
together with the `AddAssign` implementations: distinct keys, strictly
positive counts, and `total` equal to the sum of the counts. -/
def Wf {T : Type} (d : FrequencyDistribution T) : Prop :=
  (keysOf d.values).Nodup ∧ (∀ p ∈ d.values, 1 ≤ p.2) ∧ d.total = sumCounts d.values

instance {T : Type} [DecidableEq T] (d : FrequencyDistribution T) :
    Decidable (Wf d) := by
  unfold Wf; infer_instance

/-- The first value of the list whose inclusive cumulative count
(starting from `acc`) reaches `lim`. -/
def firstGe {T : Type} (lim : Nat) : Nat → List (T × Nat) → Option T
  | _, [] => none
  | acc, (v, c) :: rest => if lim ≤ acc + c then some v else firstGe lim (acc + c) rest

/-- Stated from the claim wording for comparison with the code: the
*last* value whose inclusive cumulative count (starting from `acc`) is
strictly below `lim`. -/
def specLastBelow {T : Type} (lim : Nat) : Nat → List (T × Nat) → Option T
  | _, [] => none
  | acc, (v, c) :: rest =>
      match specLastBelow lim (acc + c) rest with
      | some w => some w
      | none => if acc + c < lim then some v else none

/-- The key of the last entry of an association list (`dflt` if the
list is empty). -/
def lastKeyD {T : Type} : List (T × Nat) → T → T
  | [], dflt => dflt
  | (v, _) :: rest, _ => lastKeyD rest v

/-- Loop invariant of the quantile walk relative to the full sorted
entry list `s`: the consumed prefix splits as `a ++ [(lv, c)]`, the
cumulative count `tc` is its count sum, and every non-empty prefix of
`a` has count sum below `lim` (so the boundary search has not yet fired
inside `a`). -/
def PreInv {T : Type} (s : List (T × Nat)) (lim : Nat)
    (it : List (T × Nat)) (tc : Nat) (lv : T) : Prop :=
  ∃ a c, s = a ++ (lv, c) :: it ∧ tc = sumCounts a + c ∧
    ∀ pp qq, a = pp ++ qq → pp ≠ [] → sumCounts pp < lim

instance sortPairTotal {T : Type} [LinearOrder T] :
    IsTotal (T × Nat) (fun a b => a.1 ≤ b.1) :=
  ⟨fun a b => le_total a.1 b.1⟩

instance sortPairTrans {T : Type} [LinearOrder T] :
    IsTrans (T × Nat) (fun a b => a.1 ≤ b.1) :=
  ⟨fun _ _ _ h1 h2 => le_trans h1 h2⟩

/-- Rust `{:>7}` formatting: pad on the left with spaces to width `w`
(leave the string unchanged when it is already at least that wide). -/
def rightAlign (w : Nat) (s : String) : String :=
  if w ≤ s.length then s else String.mk (List.replicate (w - s.length) (' ')) ++ s

/-- Join fields with the `" | "` separator used by the statistics
table. -/
def joinBar : List String → String
  | [] => ""
  | [s] => s
  | s :: rest => s ++ (" | ") ++ joinBar rest

/-- The `quartiles` helper of `QueryArgs::print_stats`: render
`quantiles(4)` of a metric plus its total as six `{:>7}`-aligned
fields separated by `" | "`, with `"-"` in the five boundary fields
(and 0 as the total) when the distribution is empty.  The source
indexes `qs[0]`…`qs[4]`, which cannot be out of bounds because a
non-empty quantile sequence for `q = 4` has exactly five entries;
the model uses `getD` with an irrelevant default. -/
def quartiles (hist : FrequencyDistribution Nat) : String :=
  let qs := hist.quantiles 4
  if qs.isEmpty then
    rightAlign 7 ("-") ++ (" | ") ++ rightAlign 7 ("-") ++ (" | ") ++
      rightAlign 7 ("-") ++ (" | ") ++ rightAlign 7 ("-") ++ (" | ") ++
      rightAlign 7 ("-") ++ (" | ") ++ rightAlign 7 (toString (0 : Nat))
  else
    rightAlign 7 (toString (qs.getD 0 0)) ++ (" | ") ++
      rightAlign 7 (toString (qs.getD 1 0)) ++ (" | ") ++
      rightAlign 7 (toString (qs.getD 2 0)) ++ (" | ") ++
      rightAlign 7 (toString (qs.getD 3 0)) ++ (" | ") ++
      rightAlign 7 (toString (qs.getD 4 0)) ++ (" | ") ++
      rightAlign 7 (toString hist.total)

/-- Distributions reachable from the empty distribution by single-value
additions (`AddAssign<T>`) and merges (`AddAssign<&Self>`). -/
inductive Reachable {T : Type} [DecidableEq T] : FrequencyDistribution T → Prop
  | base : Reachable FrequencyDistribution.emptyDist
  | addOne {d : FrequencyDistribution T} (v : T) :
      Reachable d → Reachable (d.addValue v)
  | merge {d e : FrequencyDistribution T} :
      Reachable d → Reachable e → Reachable (d.mergeFrom e)

/-- The example distribution `{1:3, 2:1, 5:2}` of spec scenario 5. -/
def exDist : FrequencyDistribution Nat := ⟨[(1, 3), (2, 1), (5, 2)], 6⟩

/-! ## cli/query.rs : shadow filtering in Querier::definitions -/

/-- Modelled from the spec: a partial symbol or scope stack is a
sequence of symbol/scope handles optionally ending in a named stack
variable; `PartialPath::shadows` is not among the sources at hand, only
its caller in `Querier::definitions`. -/
structure PartialStack where
  syms : List Nat
  tailVar : Option Nat
deriving DecidableEq, Repr

/-- Modelled from the spec: the six-tuple of a partial path, with the
edge list reduced to its precedence sequence (the only part of the
edges that the shadowing relation consults). -/
structure PartialPath where
  startNode : Nat
  endNode : Nat
  symPre : PartialStack
  symPost : PartialStack
  scopePre : PartialStack
  scopePost : PartialStack
  precedences : List Int
deriving DecidableEq, Repr

/-- Modelled from the spec: two partial stacks are
unification-equivalent iff their concrete parts are equal and they both
end (or both do not end) in a stack variable; the variable names are
irrelevant because variables are freshened on load. -/
def stackEquiv (a b : PartialStack) : Bool :=
  a.syms == b.syms && a.tailVar.isSome == b.tailVar.isSome

/-- Strictly-lower lexicographic order on edge precedence lists (the
order on `Vec<i32>` used by the shadowing check; a strict prefix is
lower). -/
def lexLtPrec : List Int → List Int → Bool
  | [], [] => false
  | [], _ :: _ => true
  | _ :: _, [] => false
  | x :: xs, y :: ys => if x < y then true else if x = y then lexLtPrec xs ys else false

/-- Modelled from the spec: `P.shadows(Q)` iff the endpoints agree, the
edge list of `P` has strictly lower lexicographic precedence, and the
stack pre/post-conditions are unification-equivalent. -/
def PartialPath.shadows (p q : PartialPath) : Bool :=
  p.startNode == q.startNode && p.endNode == q.endNode &&
  lexLtPrec p.precedences q.precedences &&
  stackEquiv p.symPre q.symPre && stackEquiv p.symPost q.symPost &&
  stackEquiv p.scopePre q.scopePre && stackEquiv p.scopePost q.scopePost

/-- The shadow-filtering loop of `Querier::definitions`: a discovered
reference path is kept iff no other discovered path shadows it. -/
def filterShadowed (paths : List PartialPath) : List PartialPath :=
  paths.filter (fun p => paths.all (fun other => ! other.shadows p))

/-! ## cli/query.rs : control flow of Querier::definitions -/

/-- Model of `stack_graphs::storage::FileStatus` (declaration only among the
sources at hand; constructors named in the spec). -/
inductive FileStatus
  | missing
  | indexed
  | outdated
deriving DecidableEq, Repr

/-- The `QueryError` type of cli/query.rs, with `Cancelled` carrying the
location string. -/
inductive QueryError
  | cancelled : String → QueryError
  | readError : QueryError
  | storageError : QueryError
deriving DecidableEq, Repr

/-- A resolved source span (path plus span). -/
structure SourceSpan where
  path : String
  span : Nat
deriving DecidableEq, Repr

/-- The `QueryResult` type: the queried reference and its resolved definitions. -/
structure QueryResult where
  source : SourceSpan
  targets : List SourceSpan
deriving DecidableEq, Repr

/-- The location string of the cancellation check in the shadow loop. -/
def shadowLoc : String := "shadowing"

/-- The environment a `Querier::definitions` call runs in.  The
collaborators outside the sources at hand are modelled from the spec:
`statusResult` is the outcome of `status_for_file`, `loadResult` of
`load_graph_for_file`, `startingNodes` the reference nodes (with spans)
at the queried position, `stitch` the outcome of
`find_all_complete_partial_paths` for one starting node (the reference
paths delivered to the emit callback, and either the statistics or the
cancellation location), `flagTripped` the state of the cancellation
flag at the shadow-loop checks, and `sourceInfo`/`nodeFile` the graph
lookups used to resolve a definition node to a span and file. -/
structure QuerierEnv where
  statusResult : Except QueryError FileStatus
  loadResult : Except QueryError Unit
  referencePath : String
  startingNodes : List (Nat × Nat)
  stitch : Nat → List PartialPath × Except String Nat
  flagTripped : Bool
  sourceInfo : Nat → Option Nat
  nodeFile : Nat → Option String

/-- The `filter_map` of `Querier::definitions` that turns the surviving
paths into definition spans: a path contributes iff its end node has
source info and belongs to a file. -/
def resolveTargets (env : QuerierEnv) (ps : List PartialPath) : List SourceSpan :=
  ps.filterMap (fun p =>
    match env.sourceInfo p.endNode with
    | none => none
    | some sp =>
        match env.nodeFile p.endNode with
        | none => none
        | some f => some ⟨f, sp⟩)

/-- The shadow loop of `Querier::definitions`: for each discovered
reference path, first poll the cancellation flag (surfacing
`Cancelled("shadowing")` on a trip), then keep the path iff no other
discovered path shadows it. -/
def shadowFilterLoop (flag : Bool) (all : List PartialPath) :
    List PartialPath → Except QueryError (List PartialPath)
  | [] => Except.ok []
  | p :: rest =>
      if flag then Except.error (QueryError.cancelled shadowLoc)
      else
        match shadowFilterLoop flag all rest with
        | Except.error e => Except.error e
        | Except.ok tail =>
            if all.all (fun other => ! other.shadows p) then Except.ok (p :: tail)
            else Except.ok tail

/-- The per-reference-node loop of `Querier::definitions`: stitch
(surfacing a cancellation as `Cancelled`), shadow-filter, resolve the
surviving paths to definition spans, and accumulate results and
statistics. -/
def definitionsLoop (env : QuerierEnv) :
    List (Nat × Nat) → Except QueryError (List QueryResult × Nat)
  | [] => Except.ok ([], 0)
  | (node, sp) :: rest =>
      match env.stitch node with
      | (_, Except.error loc) => Except.error (QueryError.cancelled loc)
      | (emitted, Except.ok refStats) =>
          match shadowFilterLoop env.flagTripped emitted emitted with
          | Except.error e => Except.error e
          | Except.ok actual =>
              match definitionsLoop env rest with
              | Except.error e => Except.error e
              | Except.ok (rs, st) =>
                  Except.ok
                    (⟨⟨env.referencePath, sp⟩, resolveTargets env actual⟩ :: rs,
                      refStats + st)

namespace Querier

/-- Model of `Querier::definitions`: check the file status (anything but
`Indexed` reports a failure and returns an empty `Ok` result), load the
graph, collect the reference nodes at the position (none: empty `Ok`
result), then run the per-node loop. -/
def definitions (env : QuerierEnv) : Except QueryError (List QueryResult × Nat) :=
  match env.statusResult with
  | Except.error e => Except.error e
  | Except.ok FileStatus.indexed =>
      match env.loadResult with
      | Except.error e => Except.error e
      | Except.ok _ =>
          if env.startingNodes.isEmpty then Except.ok ([], 0)
          else definitionsLoop env env.startingNodes
  | Except.ok _ => Except.ok ([], 0)

end Querier

/-- A sample environment for the C5 witness: one reference node, the
stitcher completes with no path emitted. -/
def envNoPaths : QuerierEnv :=
  ⟨Except.ok FileStatus.indexed, Except.ok (), "a.py", [(0, 0)],
    fun _ => ([], Except.ok 0), false, fun _ => none, fun _ => none⟩

/-- A concrete partial path for the C6 witness. -/
def pathZero : PartialPath :=
  ⟨0, 1, ⟨[], none⟩, ⟨[], none⟩, ⟨[], none⟩, ⟨[], none⟩, []⟩

/-- A sample environment for the C6 witness: the stitcher has emitted
one path and then reports a cancellation at location `"stitching"`. -/
def envCancelled : QuerierEnv :=
  ⟨Except.ok FileStatus.indexed, Except.ok (), "a.py", [(0, 0)],
    fun _ => ([pathZero], Except.error ("stitching")), true,
    fun _ => none, fun _ => none⟩

namespace FrequencyDistribution

theorem sumCounts_bump {T : Type} [DecidableEq T] (l : List (T × Nat)) (v : T) (c : Nat) :
    sumCounts (bump l v c) = sumCounts l + c := by
  induction l with
  | nil => simp [bump, sumCounts]
  | cons p rest ih =>
      obtain ⟨w, d⟩ := p
      by_cases h : w = v <;> simp [bump, h, sumCounts] at ih ⊢ <;> omega

theorem lookupCount_bump {T : Type} [DecidableEq T] (l : List (T × Nat)) (v w : T) (c : Nat) :
    lookupCount (bump l v c) w = lookupCount l w + (if v = w then c else 0) := by
  induction l with
  | nil =>
      by_cases h : v = w <;> simp [bump, lookupCount, h]
  | cons p rest ih =>
      obtain ⟨x, d⟩ := p
      by_cases hxv : x = v
      · subst hxv
        by_cases hxw : x = w <;> simp [bump, lookupCount, hxw]
      · by_cases hxw : x = w
        · subst hxw
          have hvw : ¬ v = x := fun h => hxv h.symm
          simp [bump, lookupCount, hxv, hvw]
        · simp [bump, lookupCount, hxv, hxw, ih]

theorem keysOf_bump {T : Type} [DecidableEq T] (l : List (T × Nat)) (v : T) (c : Nat) :
    keysOf (bump l v c) = if v ∈ keysOf l then keysOf l else keysOf l ++ [v] := by
  induction l with
  | nil => simp [bump, keysOf]
  | cons p rest ih =>
      obtain ⟨w, d⟩ := p
      by_cases h : w = v
      · subst h; simp [bump, keysOf]
      · have hne : v ≠ w := fun hv => h hv.symm
        simp only [keysOf] at ih ⊢
        simp only [bump, h, if_false, List.map_cons, ih]
        by_cases hm : v ∈ List.map Prod.fst rest <;>
          simp [List.mem_cons, hm, hne]

theorem nodup_keys_bump {T : Type} [DecidableEq T] {l : List (T × Nat)}
    (h : (keysOf l).Nodup) (v : T) (c : Nat) : (keysOf (bump l v c)).Nodup := by
  rw [keysOf_bump]
  by_cases hm : v ∈ keysOf l
  · simpa [hm] using h
  · simp only [hm, if_false]
    exact List.Nodup.append h (List.nodup_singleton v)
      (by simpa using fun hv => hm hv)

theorem sumCounts_foldl_bump {T : Type} [DecidableEq T] (bs l : List (T × Nat)) :
    sumCounts (bs.foldl (fun acc p => bump acc p.1 p.2) l) =
      sumCounts l + sumCounts bs := by
  induction bs generalizing l with
  | nil => simp [sumCounts]
  | cons p rest ih =>
      obtain ⟨v, c⟩ := p
      simp only [List.foldl_cons, ih, sumCounts_bump]
      simp [sumCounts]; omega

theorem lookupCount_foldl_bump {T : Type} [DecidableEq T] (bs l : List (T × Nat)) (w : T) :
    lookupCount (bs.foldl (fun acc p => bump acc p.1 p.2) l) w =
      lookupCount l w + sumCounts (bs.filter (fun p => p.1 = w)) := by
  induction bs generalizing l with
  | nil => simp [sumCounts]
  | cons p rest ih =>
      obtain ⟨v, c⟩ := p
      by_cases h : v = w <;>
        simp [List.foldl_cons, ih, lookupCount_bump, h, sumCounts] <;> omega

theorem lookupCount_eq_zero_of_not_mem {T : Type} [DecidableEq T]
    {l : List (T × Nat)} {w : T} (h : w ∉ keysOf l) : lookupCount l w = 0 := by
  induction l with
  | nil => rfl
  | cons p rest ih =>
      obtain ⟨v, c⟩ := p
      simp only [keysOf, List.map_cons, List.mem_cons] at h
      push_neg at h
      have hvw : ¬ v = w := fun hv => h.1 hv.symm
      simpa [lookupCount, hvw] using ih (by simpa [keysOf] using h.2)

theorem filter_key_eq_nil_of_not_mem {T : Type} [DecidableEq T]
    {l : List (T × Nat)} {w : T} (h : w ∉ keysOf l) :
    l.filter (fun p => p.1 = w) = [] := by
  induction l with
  | nil => rfl
  | cons p rest ih =>
      obtain ⟨v, c⟩ := p
      simp only [keysOf, List.map_cons, List.mem_cons] at h
      push_neg at h
      have hvw : ¬ v = w := fun hv => h.1 hv.symm
      simpa [List.filter_cons, hvw] using ih (by simpa [keysOf] using h.2)

theorem sumCounts_filter_key {T : Type} [DecidableEq T]
    {l : List (T × Nat)} (hnd : (keysOf l).Nodup) (w : T) :
    sumCounts (l.filter (fun p => p.1 = w)) = lookupCount l w := by
  induction l with
  | nil => rfl
  | cons p rest ih =>
      obtain ⟨v, c⟩ := p
      simp only [keysOf, List.map_cons, List.nodup_cons] at hnd
      by_cases h : v = w
      · subst h
        have : rest.filter (fun p => p.1 = v) = [] :=
          filter_key_eq_nil_of_not_mem (by simpa [keysOf] using hnd.1)
        simp [List.filter_cons, lookupCount, this, sumCounts]
      · simpa [List.filter_cons, lookupCount, h] using ih hnd.2

theorem nodup_keys_foldl_bump {T : Type} [DecidableEq T] (bs : List (T × Nat))
    {l : List (T × Nat)} (h : (keysOf l).Nodup) :
    (keysOf (bs.foldl (fun acc p => bump acc p.1 p.2) l)).Nodup := by
  induction bs generalizing l with
  | nil => simpa using h
  | cons p rest ih =>
      exact ih (nodup_keys_bump h p.1 p.2)

theorem reachable_total_eq {T : Type} [DecidableEq T]
    {d : FrequencyDistribution T} (h : Reachable d) :
    d.total = sumCounts d.values := by
  induction h with
  | base => rfl
  | addOne v _ ih =>
      simp [addValue, sumCounts_bump, ih]
  | merge _ _ ih1 ih2 =>
      simp [mergeFrom, sumCounts_foldl_bump, ih1, ih2]

theorem reachable_nodup_keys {T : Type} [DecidableEq T]
    {d : FrequencyDistribution T} (h : Reachable d) :
    (keysOf d.values).Nodup := by
  induction h with
  | base => exact List.nodup_nil
  | addOne v _ ih => exact nodup_keys_bump ih v 1
  | merge _ _ ih1 _ => exact nodup_keys_foldl_bump _ ih1

end FrequencyDistribution

open FrequencyDistribution in
/-- C9: for every distribution reachable from the empty distribution by
single-value additions and merges, `total()` equals the sum of the
per-value counts; a single-value addition increases `total()` by exactly
one; and merging `b` into `a` adds the totals and adds each value's
count pointwise. -/
theorem c9_add_assign_invariant {T : Type} [DecidableEq T]
    (d a b : FrequencyDistribution T) (v : T)
    (hd : Reachable d) (hb : Reachable b) :
    d.total = sumCounts d.values ∧
    (d.addValue v).total = d.total + 1 ∧
    (a.mergeFrom b).total = a.total + b.total ∧
    ∀ w, (a.mergeFrom b).count w = a.count w + b.count w := by
  refine ⟨reachable_total_eq hd, rfl, rfl, fun w => ?_⟩
  have hnd := reachable_nodup_keys hb
  simp [FrequencyDistribution.count, mergeFrom, lookupCount_foldl_bump,
    sumCounts_filter_key hnd]

open FrequencyDistribution in
/-- Witness for C9 at concrete inputs: `d = {1 ↦ 1}` reached by one
addition, `b = {2 ↦ 1}` reached by one addition, merged into `a = {}`. -/
theorem c9_add_assign_invariant_witness :
    (((emptyDist : FrequencyDistribution Nat).addValue 1).total
        = sumCounts ((emptyDist : FrequencyDistribution Nat).addValue 1).values ∧
      (((emptyDist : FrequencyDistribution Nat).addValue 1).addValue 0).total
        = ((emptyDist : FrequencyDistribution Nat).addValue 1).total + 1 ∧
      ((emptyDist : FrequencyDistribution Nat).mergeFrom (emptyDist.addValue 2)).total
        = (emptyDist : FrequencyDistribution Nat).total + (emptyDist.addValue 2).total ∧
      ∀ w, ((emptyDist : FrequencyDistribution Nat).mergeFrom (emptyDist.addValue 2)).count w
        = (emptyDist : FrequencyDistribution Nat).count w + (emptyDist.addValue 2).count w) :=
  c9_add_assign_invariant ((emptyDist : FrequencyDistribution Nat).addValue 1)
    emptyDist (emptyDist.addValue 2) 0
    (Reachable.addOne 1 Reachable.base)
    (Reachable.addOne 2 Reachable.base)

namespace FrequencyDistribution

theorem total_foldl_addValue {T : Type}
    (l : List (T × Nat)) (acc : FrequencyDistribution Nat) :
    (l.foldl (fun fs p => fs.addValue p.2) acc).total = acc.total + l.length := by
  induction l generalizing acc with
  | nil => simp
  | cons p rest ih =>
      simp only [List.foldl_cons, ih]
      simp [addValue]
      omega

end FrequencyDistribution

open FrequencyDistribution in
/-- C10: `frequencies()` returns a distribution over the per-value
counts whose `total()` is exactly `unique()`: each distinct value of `d`
contributes one occurrence. -/
theorem c10_frequencies_total {T : Type} (d : FrequencyDistribution T) :
    d.frequencies.total = d.unique := by
  simp [frequencies, unique, total_foldl_addValue, emptyDist]

/-- C2 counterexample: on the distribution `{1:3, 2:1, 5:2}` the code
does not return the sequence `[1, 1, 2, 5, 5]` claimed by the spec. -/
theorem c2_quantiles_example_counterexample :
    exDist.quantiles 4 ≠ [1, 1, 2, 5, 5] := by decide

/-- C2 amended: on the distribution `{1:3, 2:1, 5:2}` (total 6),
`quantiles(4)` returns exactly `[1, 1, 1, 5, 5]` (at `k = 2` the limit
`round(6·2/4) = 3` is already reached by the cumulative count 3 of
value 1, so the walk does not advance past value 1). -/
theorem c2_quantiles_example_amended :
    exDist.quantiles 4 = [1, 1, 1, 5, 5] := by decide

/-- C1 counterexample: for `{1:3, 2:1, 5:2}` with `q = 4`, `k = 3`, the
limit is `round(6·3/4) = 5`; the last value whose cumulative count is
strictly below 5 is 2 (cumulative 4), but the code's boundary value at
index 3 is 5. -/
theorem c1_quantile_rule_counterexample :
    (exDist.quantiles 4)[3]? = some 5 ∧
    specLastBelow (roundLimit exDist.total 3 4) 0 (sortKeys exDist.values) = some 2 ∧
    (5 : Nat) ≠ 2 := by decide


/-- C4: a discovered reference path is included in the results iff it
was discovered and no other discovered path shadows it — shadowing
being same endpoints, strictly lower lexicographic edge precedence, and
unification-equivalent stack pre/post-conditions; in particular every
shadowed path is discarded. -/
theorem c4_shadowed_paths_discarded (paths : List PartialPath) (p : PartialPath) :
    p ∈ filterShadowed paths ↔
      p ∈ paths ∧
      ∀ q ∈ paths,
        ¬(q.startNode = p.startNode ∧ q.endNode = p.endNode ∧
          lexLtPrec q.precedences p.precedences = true ∧
          stackEquiv q.symPre p.symPre = true ∧ stackEquiv q.symPost p.symPost = true ∧
          stackEquiv q.scopePre p.scopePre = true ∧
          stackEquiv q.scopePost p.scopePost = true) := by
  simp only [filterShadowed, List.mem_filter, List.all_eq_true, PartialPath.shadows,
    Bool.not_eq_eq_eq_not, Bool.not_true, Bool.and_eq_false_imp]
  constructor
  · rintro ⟨hp, hall⟩
    refine ⟨hp, fun q hq hcontra => ?_⟩
    obtain ⟨h1, h2, h3, h4, h5, h6, h7⟩ := hcontra
    have := hall q hq
    simp [h1, h2, h3, h4, h5, h6, h7] at this
  · rintro ⟨hp, hall⟩
    refine ⟨hp, fun q hq => ?_⟩
    have := hall q hq
    by_cases h1 : q.startNode = p.startNode
    · by_cases h2 : q.endNode = p.endNode
      · by_cases h3 : lexLtPrec q.precedences p.precedences = true
        · by_cases h4 : stackEquiv q.symPre p.symPre = true
          · by_cases h5 : stackEquiv q.symPost p.symPost = true
            · by_cases h6 : stackEquiv q.scopePre p.scopePre = true
              · by_cases h7 : stackEquiv q.scopePost p.scopePost = true
                · exact absurd ⟨h1, h2, h3, h4, h5, h6, h7⟩ this
                · simp [h1, h2, h3, h4, h5, h6, Bool.eq_false_iff.mpr h7]
              · simp [h1, h2, h3, h4, h5, Bool.eq_false_iff.mpr h6]
            · simp [h1, h2, h3, h4, Bool.eq_false_iff.mpr h5]
          · simp [h1, h2, h3, Bool.eq_false_iff.mpr h4]
        · simp [h1, h2, Bool.eq_false_iff.mpr h3]
      · simp [h1, h2]
    · simp [h1]

theorem definitionsLoop_all_empty (env : QuerierEnv) (hfl : env.flagTripped = false) :
    ∀ nodes : List (Nat × Nat),
      (∀ p ∈ nodes, (env.stitch p.1).1 = [] ∧ ∃ st, (env.stitch p.1).2 = Except.ok st) →
      ∃ rs st, definitionsLoop env nodes = Except.ok (rs, st) ∧ ∀ r ∈ rs, r.targets = []
  | [], _ => ⟨[], 0, rfl, by simp⟩
  | (node, sp) :: rest, h => by
      obtain ⟨hemit, st0, hok⟩ := h (node, sp) (List.mem_cons_self _ _)
      obtain ⟨rs, st, hloop, htargets⟩ :=
        definitionsLoop_all_empty env hfl rest (fun p hp => h p (List.mem_cons_of_mem _ hp))
      refine ⟨⟨⟨env.referencePath, sp⟩, resolveTargets env []⟩ :: rs, st0 + st, ?_, ?_⟩
      · have hstitch : env.stitch node = ([], Except.ok st0) :=
          Prod.ext_iff.mpr ⟨hemit, hok⟩
        simp only [definitionsLoop, hstitch, shadowFilterLoop, hfl, hloop]
      · intro r hr
        rcases List.mem_cons.mp hr with h | h
        · subst h; simp [resolveTargets]
        · exact htargets r h

/-- C5: if the file is indexed, the graph loads, the cancellation flag
never trips, and the stitcher completes on every reference node without
emitting any complete path (no definition is reachable), then
`Querier::definitions` returns `Ok` with an empty targets list for
every queried reference — zero complete paths is not an error. -/
theorem c5_no_definitions_is_ok (env : QuerierEnv)
    (hst : env.statusResult = Except.ok FileStatus.indexed)
    (hld : env.loadResult = Except.ok ())
    (hfl : env.flagTripped = false)
    (hstitch : ∀ p ∈ env.startingNodes,
      (env.stitch p.1).1 = [] ∧ ∃ st, (env.stitch p.1).2 = Except.ok st) :
    ∃ rs st, Querier.definitions env = Except.ok (rs, st) ∧
      ∀ r ∈ rs, r.targets = [] := by
  unfold Querier.definitions
  rw [hst, hld]
  by_cases hni : env.startingNodes.isEmpty
  · exact ⟨[], 0, by simp [hni], by simp⟩
  · obtain ⟨rs, st, hloop, ht⟩ :=
      definitionsLoop_all_empty env hfl env.startingNodes hstitch
    exact ⟨rs, st, by simp [hni, hloop], ht⟩


/-- Witness for C5 at a concrete environment. -/
theorem c5_no_definitions_is_ok_witness :
    ∃ rs st, Querier.definitions envNoPaths = Except.ok (rs, st) ∧
      ∀ r ∈ rs, r.targets = [] :=
  c5_no_definitions_is_ok envNoPaths rfl rfl rfl
    (fun p _ => ⟨rfl, 0, rfl⟩)

/-- C6: under an indexed file and a successful load, if the stitcher
trips the cancellation flag on the first reference node it surfaces as
`Cancelled` with the stitcher's location string; and if the stitcher
succeeds but the flag is tripped during the shadow loop over a
non-empty list of discovered reference paths, the call surfaces
`Cancelled("shadowing")`.  In both cases the error is returned to the
caller rather than discarded, while the reference paths `ps` already
collected by the emit callback stay available as the first component
of `env.stitch node`. -/
theorem c6_cancellation_surfaced (env : QuerierEnv) (node sp : Nat)
    (rest : List (Nat × Nat)) (ps : List PartialPath) (loc : String) (st : Nat)
    (hst : env.statusResult = Except.ok FileStatus.indexed)
    (hld : env.loadResult = Except.ok ())
    (hns : env.startingNodes = (node, sp) :: rest) :
    (env.stitch node = (ps, Except.error loc) →
      Querier.definitions env = Except.error (QueryError.cancelled loc)) ∧
    (env.stitch node = (ps, Except.ok st) → ps ≠ [] → env.flagTripped = true →
      Querier.definitions env = Except.error (QueryError.cancelled shadowLoc)) := by
  constructor
  · intro hstitch
    unfold Querier.definitions
    rw [hst, hld, hns]
    simp only [List.isEmpty_cons, if_false, Bool.false_eq_true]
    simp [definitionsLoop, hstitch]
  · intro hstitch hne hfl
    unfold Querier.definitions
    rw [hst, hld, hns]
    simp only [List.isEmpty_cons, if_false, Bool.false_eq_true]
    rcases ps with _ | ⟨p, ps2⟩
    · exact absurd rfl hne
    · simp [definitionsLoop, hstitch, shadowFilterLoop, hfl]



/-- Witness for C6 at a concrete environment. -/
theorem c6_cancellation_surfaced_witness :
    (envCancelled.stitch 0 = ([pathZero], Except.error ("stitching")) →
      Querier.definitions envCancelled =
        Except.error (QueryError.cancelled ("stitching"))) ∧
    (envCancelled.stitch 0 = ([pathZero], Except.ok 7) → [pathZero] ≠ [] →
      envCancelled.flagTripped = true →
      Querier.definitions envCancelled =
        Except.error (QueryError.cancelled shadowLoc)) :=
  c6_cancellation_surfaced envCancelled 0 0 [] [pathZero] ("stitching") 7
    rfl rfl rfl

/-! ### Lemmas about the quantile walk -/

theorem sumCounts_nil {T : Type} : sumCounts ([] : List (T × Nat)) = 0 := rfl

theorem sumCounts_cons {T : Type} (p : T × Nat) (l : List (T × Nat)) :
    sumCounts (p :: l) = p.2 + sumCounts l := by
  simp [sumCounts]

theorem sumCounts_cons2 {T : Type} (v : T) (c : Nat) (l : List (T × Nat)) :
    sumCounts ((v, c) :: l) = c + sumCounts l := by
  simp [sumCounts]

theorem sumCounts_append {T : Type} (a b : List (T × Nat)) :
    sumCounts (a ++ b) = sumCounts a + sumCounts b := by
  simp [sumCounts]

theorem lastKeyD_append_singleton {T : Type} :
    ∀ (l : List (T × Nat)) (w : T) (cw : Nat) (dflt : T),
      lastKeyD (l ++ [(w, cw)]) dflt = w
  | [], _, _, _ => rfl
  | (v, c) :: rest, w, cw, _ => lastKeyD_append_singleton rest w cw v

theorem quantAux_length {T : Type} (t q : Nat) :
    ∀ (n : Nat) (it : List (T × Nat)) (tc : Nat) (lv : T),
      (quantAux t q n it tc lv).length = n
  | 0, _, _, _ => rfl
  | n + 1, it, tc, lv => by
      simp only [quantAux]
      rcases h : walk (roundLimit t (q - n) q) it tc lv with ⟨it2, tc2, lv2⟩
      simp [quantAux_length t q n it2 tc2 lv2]

theorem roundLimit_mono (t q k1 k2 : Nat) (h : k1 ≤ k2) :
    roundLimit t k1 q ≤ roundLimit t k2 q := by
  unfold roundLimit
  exact Nat.div_le_div_right (by nlinarith)

theorem roundLimit_le_total (t q k : Nat) (hq : 1 ≤ q) (hk : k ≤ q) :
    roundLimit t k q ≤ t := by
  unfold roundLimit
  rw [Nat.lt_succ_iff.symm, Nat.succ_eq_add_one, Nat.div_lt_iff_lt_mul (by omega)]
  nlinarith

theorem roundLimit_total (t q : Nat) (hq : 1 ≤ q) : roundLimit t q q = t := by
  unfold roundLimit
  have h1 : 2 * t * q + q = q + 2 * q * t := by ring
  rw [h1, Nat.add_mul_div_left _ _ (by omega : 0 < 2 * q), Nat.div_eq_of_lt (by omega)]
  omega

/-- Decomposition of one run of the `while total_count < limit` loop:
the consumed prefix `con` of the iterator, the updated cumulative count
and last value, the fact that the loop guard held before consuming each
entry (every proper prefix of `con` keeps the count below the limit),
and the loop postcondition (the limit was reached unless the iterator
was exhausted). -/
theorem walk_spec {T : Type} (lim : Nat) :
    ∀ (it : List (T × Nat)) (tc : Nat) (lv : T),
      ∃ con : List (T × Nat),
        it = con ++ (walk lim it tc lv).1 ∧
        (walk lim it tc lv).2.1 = tc + sumCounts con ∧
        (walk lim it tc lv).2.2 = lastKeyD con lv ∧
        (∀ pp qq, con = pp ++ qq → qq ≠ [] → tc + sumCounts pp < lim) ∧
        ((walk lim it tc lv).1 ≠ [] → lim ≤ (walk lim it tc lv).2.1)
  | [], tc, lv =>
      ⟨[], rfl, by simp [walk, sumCounts], rfl,
        fun pp qq hsplit hne => absurd (List.append_eq_nil.mp hsplit.symm).2 hne,
        fun h => absurd rfl h⟩
  | (v, c) :: rest, tc, lv => by
      by_cases h : tc < lim
      · obtain ⟨con, hdec, htc, hlv, hpref, hpost⟩ := walk_spec lim rest (tc + c) v
        refine ⟨(v, c) :: con, ?_, ?_, ?_, ?_, ?_⟩
        · simpa [walk, h] using hdec
        · simp only [walk, h, if_true]
          rw [htc, sumCounts_cons]
          omega
        · simpa [walk, h] using hlv
        · intro pp qq hsplit hne
          rcases pp with _ | ⟨hd, tl⟩
          · simpa [sumCounts] using h
          · rcases List.cons_eq_cons.mp hsplit with ⟨hhd, htl⟩
            subst hhd
            have := hpref tl qq htl hne
            rw [sumCounts_cons]
            omega
        · simpa [walk, h] using hpost
      · refine ⟨[], by simp [walk, h], by simp [walk, h, sumCounts],
          by simp [walk, h, lastKeyD],
          fun pp qq hsplit hne => absurd (List.append_eq_nil.mp hsplit.symm).2 hne,
          fun _ => by simp [walk, h]; omega⟩

/-! ### Lemmas about the boundary characterization `firstGe` -/

theorem firstGe_append {T : Type} (lim : Nat) :
    ∀ (a b : List (T × Nat)) (acc : Nat),
      (∀ pp qq, a = pp ++ qq → pp ≠ [] → acc + sumCounts pp < lim) →
      firstGe lim acc (a ++ b) = firstGe lim (acc + sumCounts a) b
  | [], b, acc, _ => by simp [sumCounts]
  | (v, c) :: rest, b, acc, h => by
      have hvc : acc + c < lim := by
        have := h [(v, c)] rest rfl (by simp)
        simpa [sumCounts] using this
      have hrec := firstGe_append lim rest b (acc + c) (fun pp qq hs hne => by
        have := h ((v, c) :: pp) qq (by simp [hs]) (by simp)
        rw [sumCounts_cons2] at this
        omega)
      have hnle : ¬ lim ≤ acc + c := by omega
      have hstep : firstGe lim acc ((v, c) :: (rest ++ b)) = firstGe lim (acc + c) (rest ++ b) := by
        simp [firstGe, hnle]
      rw [List.cons_append, hstep, hrec, sumCounts_cons2, Nat.add_assoc]

theorem firstGe_split {T : Type} (lim : Nat) :
    ∀ (l : List (T × Nat)) (acc : Nat) (v : T),
      firstGe lim acc l = some v →
      ∃ a c b, l = a ++ (v, c) :: b ∧
        (∀ pp qq, a = pp ++ qq → pp ≠ [] → acc + sumCounts pp < lim) ∧
        lim ≤ acc + sumCounts a + c
  | [], _, _, h => by simp [firstGe] at h
  | (w, cw) :: rest, acc, v, h => by
      by_cases hf : lim ≤ acc + cw
      · have hv : w = v := by simpa [firstGe, hf] using h
        subst hv
        exact ⟨[], cw, rest, rfl,
          fun pp qq hs hne => absurd (List.append_eq_nil.mp hs.symm).1 hne,
          by simpa [sumCounts] using hf⟩
      · have hrec : firstGe lim (acc + cw) rest = some v := by
          simpa [firstGe, hf] using h
        obtain ⟨a, c, b, hdec, hpref, hge⟩ := firstGe_split lim rest (acc + cw) v hrec
        refine ⟨(w, cw) :: a, c, b, by simp [hdec], ?_, ?_⟩
        · intro pp qq hs hne
          rcases pp with _ | ⟨hd, tl⟩
          · exact absurd rfl hne
          · rcases List.cons_eq_cons.mp hs with ⟨hhd, htl⟩
            subst hhd
            rcases tl with _ | ⟨hd2, tl2⟩
            · simp only [sumCounts_cons, sumCounts_nil]
              omega
            · have := hpref (hd2 :: tl2) qq htl (by simp)
              rw [sumCounts_cons]
              omega
        · rw [sumCounts_cons]
          omega

theorem firstGe_isSome {T : Type} (lim : Nat) :
    ∀ (l : List (T × Nat)) (acc : Nat), l ≠ [] → lim ≤ acc + sumCounts l →
      (firstGe lim acc l).isSome
  | [], _, hne, _ => absurd rfl hne
  | (w, cw) :: rest, acc, _, hle => by
      rw [sumCounts_cons2] at hle
      by_cases hf : lim ≤ acc + cw
      · simp [firstGe, hf]
      · rcases rest with _ | ⟨p, rest2⟩
        · rw [sumCounts_nil] at hle
          omega
        · have := firstGe_isSome lim (p :: rest2) (acc + cw) (by simp) (by omega)
          simpa [firstGe, hf] using this

theorem firstGe_last {T : Type} (lim : Nat) (dflt : T) :
    ∀ (l : List (T × Nat)) (acc : Nat), l ≠ [] →
      (∀ pp qq, l = pp ++ qq → pp ≠ [] → qq ≠ [] → acc + sumCounts pp < lim) →
      lim ≤ acc + sumCounts l →
      firstGe lim acc l = some (lastKeyD l dflt)
  | [], _, hne, _, _ => absurd rfl hne
  | (w, cw) :: rest, acc, _, hpref, hle => by
      rw [sumCounts_cons2] at hle
      rcases rest with _ | ⟨p, rest2⟩
      · rw [sumCounts_nil] at hle
        simp [firstGe, lastKeyD, (by omega : lim ≤ acc + cw)]
      · have hw : acc + cw < lim := by
          have := hpref [(w, cw)] (p :: rest2) rfl (by simp) (by simp)
          simpa [sumCounts] using this
        have hrec := firstGe_last lim w (p :: rest2) (acc + cw) (by simp)
          (fun pp qq hs hne hqq => by
            have := hpref ((w, cw) :: pp) qq (by simp [hs]) (by simp) hqq
            rw [sumCounts_cons2] at this
            omega)
          (by omega)
        simpa [firstGe, if_neg (by omega : ¬ lim ≤ acc + cw), lastKeyD] using hrec

/-- One iteration of the `for k in 1..=q` loop: if the state satisfies
the walk invariant for the current limit and the limit does not exceed
the total count, then after the walk the invariant still holds, the
reached last value is exactly the first sorted value whose cumulative
count reaches the limit, and the cumulative count has reached the
limit. -/
theorem stepInv {T : Type} (s : List (T × Nat)) (lim : Nat)
    (it : List (T × Nat)) (tc : Nat) (lv : T)
    (hinv : PreInv s lim it tc lv) (hlim : lim ≤ sumCounts s) :
    PreInv s lim (walk lim it tc lv).1 (walk lim it tc lv).2.1 (walk lim it tc lv).2.2 ∧
    firstGe lim 0 s = some ((walk lim it tc lv).2.2) ∧
    lim ≤ (walk lim it tc lv).2.1 := by
  obtain ⟨a, c, hs, htc, hpref⟩ := hinv
  obtain ⟨con, hdec, htc2, hlv2, hconpref, hpost⟩ := walk_spec lim it tc lv
  have hit : sumCounts it = sumCounts con + sumCounts (walk lim it tc lv).1 := by
    conv_lhs => rw [hdec]
    rw [sumCounts_append]
  have hsum : sumCounts s =
      sumCounts a + c + sumCounts con + sumCounts (walk lim it tc lv).1 := by
    rw [hs, sumCounts_append, sumCounts_cons2]
    omega
  have hlim2 : lim ≤ (walk lim it tc lv).2.1 := by
    rcases heq : (walk lim it tc lv).1 with _ | ⟨p, r2⟩
    · rw [heq, sumCounts_nil] at hsum
      rw [htc2]
      omega
    · exact hpost (by simp [heq])
  have hfire : ∀ (aa : List (T × Nat)) (ww : T) (cww : Nat) (itt : List (T × Nat)),
      s = aa ++ (ww, cww) :: itt →
      (∀ pp qq, aa = pp ++ qq → pp ≠ [] → sumCounts pp < lim) →
      lim ≤ sumCounts aa + cww →
      firstGe lim 0 s = some ww := by
    intro aa ww cww itt hseq hp hl
    rw [hseq, firstGe_append lim aa _ 0 (fun pp qq h1 h2 => by
      have := hp pp qq h1 h2
      omega)]
    simp [firstGe, hl]
  rcases List.eq_nil_or_concat con with hcon | ⟨con1, ⟨w, cw⟩, hcon⟩
  · subst hcon
    rw [sumCounts_nil] at htc2
    rw [List.nil_append] at hdec
    have h1 : (walk lim it tc lv).1 = it := hdec.symm
    have h2 : (walk lim it tc lv).2.1 = tc := by omega
    have h3 : (walk lim it tc lv).2.2 = lv := hlv2
    rw [h1, h2, h3]
    rw [h2] at hlim2
    refine ⟨⟨a, c, hs, htc, hpref⟩, ?_, hlim2⟩
    exact hfire a lv c it hs hpref (by omega)
  · rw [List.concat_eq_append] at hcon
    subst hcon
    have h3 : (walk lim it tc lv).2.2 = w := by
      rw [hlv2, lastKeyD_append_singleton]
    have hs2 : s = (a ++ (lv, c) :: con1) ++ (w, cw) :: (walk lim it tc lv).1 := by
      conv_lhs => rw [hs]
      conv_lhs => rw [hdec]
      simp
    have htcnew : (walk lim it tc lv).2.1 = sumCounts (a ++ (lv, c) :: con1) + cw := by
      rw [htc2, htc]
      simp [sumCounts_append, sumCounts_cons2, sumCounts]
      omega
    have htclt : tc < lim := by
      have := hconpref [] (con1 ++ [(w, cw)]) rfl (by simp)
      simpa [sumCounts] using this
    have hprefnew : ∀ pp qq, a ++ (lv, c) :: con1 = pp ++ qq → pp ≠ [] →
        sumCounts pp < lim := by
      intro pp qq hsplit hne
      rcases List.append_eq_append_iff.mp hsplit with ⟨a2, hppa, hsplit2⟩ | ⟨c2, ha, hqq⟩
      · rcases a2 with _ | ⟨hd, tl⟩
        · rw [List.append_nil] at hppa
          subst hppa
          omega
        · rcases List.cons_eq_cons.mp hsplit2 with ⟨hhd, htl⟩
          subst hhd
          subst hppa
          have hcon2 : con1 ++ [(w, cw)] = tl ++ (qq ++ [(w, cw)]) := by
            rw [htl]
            simp
          have := hconpref tl (qq ++ [(w, cw)]) hcon2 (by simp)
          rw [sumCounts_append, sumCounts_cons2]
          omega
      · rcases c2 with _ | ⟨hd2, tl2⟩
        · rw [List.append_nil] at ha
          subst ha
          omega
        · exact hpref pp (hd2 :: tl2) ha hne
    rw [h3]
    refine ⟨⟨a ++ (lv, c) :: con1, cw, hs2, htcnew, hprefnew⟩, ?_, hlim2⟩
    exact hfire (a ++ (lv, c) :: con1) w cw (walk lim it tc lv).1 hs2 hprefnew
      (by omega)

theorem PreInv.mono {T : Type} {s : List (T × Nat)} {lim lim2 : Nat}
    {it : List (T × Nat)} {tc : Nat} {lv : T}
    (h : PreInv s lim it tc lv) (hle : lim ≤ lim2) : PreInv s lim2 it tc lv := by
  obtain ⟨a, c, hs, htc, hpref⟩ := h
  exact ⟨a, c, hs, htc, fun pp qq h1 h2 => lt_of_lt_of_le (hpref pp qq h1 h2) hle⟩

/-- Full characterization of the boundary values produced by the
`for k in 1..=q` loop: starting from a state satisfying the walk
invariant for the first remaining limit, the `j`-th produced boundary is
the first sorted value whose cumulative count reaches
`round(total·k/q)` for `k = q - n + 1 + j`. -/
theorem quantAux_get {T : Type} (t q : Nat) (s : List (T × Nat))
    (hts : sumCounts s = t) (hq : 1 ≤ q) :
    ∀ (n : Nat) (it : List (T × Nat)) (tc : Nat) (lv : T), n ≤ q →
      PreInv s (roundLimit t (q - n + 1) q) it tc lv →
      ∀ j, j < n → (quantAux t q n it tc lv)[j]? =
        firstGe (roundLimit t (q - n + 1 + j) q) 0 s
  | 0, _, _, _, _, _, _, hj => absurd hj (by omega)
  | n + 1, it, tc, lv, hn, hinv, j, hj => by
      have hk : q - (n + 1) + 1 = q - n := by omega
      rw [hk] at hinv
      have hlimle : roundLimit t (q - n) q ≤ sumCounts s := by
        rw [hts]
        exact roundLimit_le_total t q (q - n) hq (by omega)
      obtain ⟨hinv2, hfg, hreach⟩ := stepInv s (roundLimit t (q - n) q) it tc lv hinv hlimle
      simp only [quantAux]
      rcases hr : walk (roundLimit t (q - n) q) it tc lv with ⟨it2, tc2, lv2⟩
      rw [hr] at hinv2 hfg hreach
      rcases j with _ | j2
      · simpa [hk] using hfg.symm
      · rw [List.getElem?_cons_succ]
        have hn2 : 1 ≤ n := by omega
        have hmono : roundLimit t (q - n) q ≤ roundLimit t (q - n + 1) q :=
          roundLimit_mono t q _ _ (by omega)
        have := quantAux_get t q s hts hq n it2 tc2 lv2 (by omega)
          (hinv2.mono hmono) j2 (by omega)
        rw [this]
        have harith : q - n + 1 + j2 = q - (n + 1) + 1 + (j2 + 1) := by omega
        rw [harith]

/-- The central characterization of `quantiles`: for a well-formed
non-empty distribution and `1 ≤ k ≤ q`, the boundary at index `k` is
the first value (in ascending order of values) whose cumulative count
reaches `round(total·k/q)`. -/
theorem quantiles_char {T : Type} [LinearOrder T]
    (d : FrequencyDistribution T) (q k : Nat) (hwf : Wf d)
    (hq : 1 ≤ q) (ht : 1 ≤ d.total) (hk : 1 ≤ k) (hkq : k ≤ q) :
    (d.quantiles q)[k]? =
      firstGe (roundLimit d.total k q) 0 (sortKeys d.values) := by
  obtain ⟨hnd, hpos, htot⟩ := hwf
  have hperm : (sortKeys d.values).Perm d.values := by
    unfold sortKeys
    exact List.perm_insertionSort _ _
  have hsum : sumCounts (sortKeys d.values) = d.total := by
    rw [htot]
    exact List.Perm.sum_eq (hperm.map (fun p => p.2))
  have hne : sortKeys d.values ≠ [] := by
    intro h
    rw [h, sumCounts_nil] at hsum
    omega
  rcases hsort : sortKeys d.values with _ | ⟨⟨v, c⟩, rest⟩
  · exact absurd hsort hne
  · have hcond : ¬(q = 0 ∨ d.total = 0) := by omega
    rw [FrequencyDistribution.quantiles, if_neg hcond, hsort]
    have hinit : PreInv (sortKeys d.values) (roundLimit d.total (q - q + 1) q)
        rest c v := by
      refine ⟨[], c, by rw [hsort, List.nil_append], by simp [sumCounts], ?_⟩
      intro pp qq hsplit hnepp
      exact absurd (List.append_eq_nil.mp hsplit.symm).1 hnepp
    have hchar := quantAux_get d.total q (sortKeys d.values)
      (by rw [hsum]) hq q rest c v (le_refl q) hinit (k - 1) (by omega)
    have hidx : (v :: quantAux d.total q q rest c v)[k]? =
        (quantAux d.total q q rest c v)[k - 1]? := by
      rcases k with _ | k2
      · omega
      · simp
    rw [hidx, hchar]
    have harith : q - q + 1 + (k - 1) = k := by omega
    rw [harith, hsort]

theorem sumCounts_sortKeys {T : Type} [LinearOrder T] (l : List (T × Nat)) :
    sumCounts (sortKeys l) = sumCounts l := by
  have hperm : (sortKeys l).Perm l := by
    unfold sortKeys
    exact List.perm_insertionSort _ _
  exact List.Perm.sum_eq (hperm.map (fun p => p.2))

theorem firstGe_mem {T : Type} (lim : Nat) :
    ∀ (l : List (T × Nat)) (acc : Nat) (v : T),
      firstGe lim acc l = some v → v ∈ keysOf l
  | [], _, _, h => by simp [firstGe] at h
  | (w, cw) :: rest, acc, v, h => by
      by_cases hf : lim ≤ acc + cw
      · have : w = v := by simpa [firstGe, hf] using h
        subst this
        simp [keysOf]
      · have hrec : firstGe lim (acc + cw) rest = some v := by
          simpa [firstGe, hf] using h
        have := firstGe_mem lim rest (acc + cw) v hrec
        simp [keysOf] at this ⊢
        exact Or.inr this

theorem firstGe_mono {T : Type} [LinearOrder T] (lim1 lim2 : Nat) (hl : lim1 ≤ lim2) :
    ∀ (l : List (T × Nat)) (acc : Nat) (v1 v2 : T),
      List.Pairwise (· ≤ ·) (keysOf l) →
      firstGe lim1 acc l = some v1 → firstGe lim2 acc l = some v2 → v1 ≤ v2
  | [], _, _, _, _, h1, _ => by simp [firstGe] at h1
  | (w, cw) :: rest, acc, v1, v2, hpw, h1, h2 => by
      by_cases hf2 : lim2 ≤ acc + cw
      · have hf1 : lim1 ≤ acc + cw := le_trans hl hf2
        have e1 : w = v1 := by simpa [firstGe, hf1] using h1
        have e2 : w = v2 := by simpa [firstGe, hf2] using h2
        subst e1
        exact le_of_eq e2
      · by_cases hf1 : lim1 ≤ acc + cw
        · have e1 : w = v1 := by simpa [firstGe, hf1] using h1
          subst e1
          have hrec2 : firstGe lim2 (acc + cw) rest = some v2 := by
            simpa [firstGe, hf2] using h2
          have hmem := firstGe_mem lim2 rest (acc + cw) v2 hrec2
          simp only [keysOf, List.map_cons, List.pairwise_cons] at hpw
          exact hpw.1 v2 hmem
        · have hrec1 : firstGe lim1 (acc + cw) rest = some v1 := by
            simpa [firstGe, hf1] using h1
          have hrec2 : firstGe lim2 (acc + cw) rest = some v2 := by
            simpa [firstGe, hf2] using h2
          simp only [keysOf, List.map_cons, List.pairwise_cons] at hpw
          exact firstGe_mono lim1 lim2 hl rest (acc + cw) v1 v2 hpw.2 hrec1 hrec2

theorem lastKeyD_mem {T : Type} :
    ∀ (l : List (T × Nat)) (dflt : T), l ≠ [] → lastKeyD l dflt ∈ keysOf l
  | [], _, hne => absurd rfl hne
  | (v, c) :: rest, dflt, _ => by
      rcases rest with _ | ⟨p, rest2⟩
      · simp [lastKeyD, keysOf]
      · have := lastKeyD_mem (p :: rest2) v (by simp)
        simp only [lastKeyD, keysOf, List.map_cons, List.mem_cons] at this ⊢
        tauto

theorem le_lastKeyD {T : Type} [LinearOrder T] :
    ∀ (l : List (T × Nat)) (dflt : T), List.Pairwise (· ≤ ·) (keysOf l) →
      ∀ x ∈ keysOf l, x ≤ lastKeyD l dflt
  | [], _, _, x, hx => by simp [keysOf] at hx
  | (v, c) :: rest, dflt, hpw, x, hx => by
      simp only [keysOf, List.map_cons, List.pairwise_cons] at hpw
      simp only [keysOf, List.map_cons, List.mem_cons] at hx
      rcases rest with _ | ⟨p, rest2⟩
      · rcases hx with hx | hx
        · subst hx; simp [lastKeyD]
        · simp [keysOf] at hx
      · rcases hx with hx | hx
        · subst hx
          have hmem := lastKeyD_mem (p :: rest2) x (by simp)
          have := hpw.1 (lastKeyD (p :: rest2) x) hmem
          simpa [lastKeyD] using this
        · have := le_lastKeyD (p :: rest2) v hpw.2 x (by simpa [keysOf] using hx)
          simpa [lastKeyD] using this

theorem sumCounts_pos_of_mem {T : Type} :
    ∀ (l : List (T × Nat)), (∀ p ∈ l, 1 ≤ p.2) → l ≠ [] → 1 ≤ sumCounts l
  | [], _, hne => absurd rfl hne
  | (v, c) :: rest, hpos, _ => by
      have := hpos (v, c) (by simp)
      rw [sumCounts_cons2]
      omega

open FrequencyDistribution in
/-- C1 amended: for every well-formed non-empty distribution, `q ≥ 1`
and `1 ≤ k ≤ q`, the `k`-th boundary value of `quantiles(q)` is the
*first* value in ascending order whose cumulative count reaches
`round(total·k/q)` — not the last value strictly below it: the sorted
entries split as `a ++ (v, c) :: b` where every non-empty prefix of `a`
keeps the cumulative count strictly below the limit and the count
through `v` reaches it. -/
theorem c1_quantile_boundary_amended {T : Type} [LinearOrder T]
    (d : FrequencyDistribution T) (q k : Nat) (hwf : Wf d)
    (hq : 1 ≤ q) (ht : 1 ≤ d.total) (hk : 1 ≤ k) (hkq : k ≤ q) :
    ∃ v a c b,
      (d.quantiles q)[k]? = some v ∧
      sortKeys d.values = a ++ (v, c) :: b ∧
      (∀ pp qq, a = pp ++ qq → pp ≠ [] → sumCounts pp < roundLimit d.total k q) ∧
      roundLimit d.total k q ≤ sumCounts a + c := by
  have hchar := quantiles_char d q k hwf hq ht hk hkq
  have hsum : sumCounts (sortKeys d.values) = d.total := by
    rw [sumCounts_sortKeys, hwf.2.2]
  have hne : sortKeys d.values ≠ [] := by
    intro h
    rw [h, sumCounts_nil] at hsum
    omega
  have hsome := firstGe_isSome (roundLimit d.total k q) (sortKeys d.values) 0 hne
    (by rw [hsum]; have := roundLimit_le_total d.total q k hq hkq; omega)
  obtain ⟨v, hv⟩ := Option.isSome_iff_exists.mp hsome
  obtain ⟨a, c, b, hdec, hpref, hge⟩ := firstGe_split _ _ _ _ hv
  refine ⟨v, a, c, b, by rw [hchar, hv], hdec, ?_, by omega⟩
  intro pp qq h1 h2
  have := hpref pp qq h1 h2
  omega

/-- Witness for the amended C1 on the distribution `{1:3, 2:1, 5:2}`
with `q = 4`, `k = 3`. -/
theorem c1_quantile_boundary_amended_witness :
    ∃ v a c b,
      (exDist.quantiles 4)[3]? = some v ∧
      sortKeys exDist.values = a ++ (v, c) :: b ∧
      (∀ pp qq, a = pp ++ qq → pp ≠ [] → sumCounts pp < roundLimit exDist.total 3 4) ∧
      roundLimit exDist.total 3 4 ≤ sumCounts a + c :=
  c1_quantile_boundary_amended exDist 4 3 (by decide) (by decide) (by decide)
    (by decide) (by decide)

theorem quantiles_length {T : Type} [LinearOrder T]
    (d : FrequencyDistribution T) (q : Nat) (hwf : Wf d)
    (hq : 1 ≤ q) (ht : 1 ≤ d.total) :
    (d.quantiles q).length = q + 1 := by
  have hsum : sumCounts (sortKeys d.values) = d.total := by
    rw [sumCounts_sortKeys, hwf.2.2]
  have hne : sortKeys d.values ≠ [] := by
    intro h
    rw [h, sumCounts_nil] at hsum
    omega
  rcases hsort : sortKeys d.values with _ | ⟨⟨v, c⟩, rest⟩
  · exact absurd hsort hne
  · rw [FrequencyDistribution.quantiles, if_neg (by omega), hsort]
    simp [quantAux_length]

open FrequencyDistribution in
/-- C3: `quantiles(q)` returns the empty sequence when `q = 0` or the
distribution is empty; otherwise it returns exactly `q+1` values
forming a non-decreasing sequence whose entry at index 0 is the minimum
value of the distribution and whose entry at index `q` is the maximum
value. -/
theorem c3_quantiles_shape {T : Type} [LinearOrder T]
    (d : FrequencyDistribution T) (q : Nat) (hwf : Wf d) :
    ((q = 0 ∨ d.total = 0) → d.quantiles q = []) ∧
    (1 ≤ q → 1 ≤ d.total →
      (d.quantiles q).length = q + 1 ∧
      (d.quantiles q).Chain' (· ≤ ·) ∧
      (∃ m, (d.quantiles q)[0]? = some m ∧ m ∈ keysOf d.values ∧
        ∀ x ∈ keysOf d.values, m ≤ x) ∧
      (∃ M, (d.quantiles q)[q]? = some M ∧ M ∈ keysOf d.values ∧
        ∀ x ∈ keysOf d.values, x ≤ M)) := by
  constructor
  · intro h
    rw [FrequencyDistribution.quantiles, if_pos h]
  · intro hq ht
    obtain ⟨hnd, hpos, htot⟩ := hwf
    have hwf2 : Wf d := ⟨hnd, hpos, htot⟩
    have hperm : (sortKeys d.values).Perm d.values := by
      unfold sortKeys
      exact List.perm_insertionSort _ _
    have hkeysperm : (keysOf (sortKeys d.values)).Perm (keysOf d.values) :=
      hperm.map Prod.fst
    have hsum : sumCounts (sortKeys d.values) = d.total := by
      rw [sumCounts_sortKeys, htot]
    have hne : sortKeys d.values ≠ [] := by
      intro h
      rw [h, sumCounts_nil] at hsum
      omega
    have hsorted : List.Sorted (fun a b : T × Nat => a.1 ≤ b.1) (sortKeys d.values) := by
      unfold sortKeys
      exact List.sorted_insertionSort _ _
    have hpw : List.Pairwise (· ≤ ·) (keysOf (sortKeys d.values)) := by
      unfold keysOf
      exact List.pairwise_map.mpr hsorted
    have hposs : ∀ p ∈ sortKeys d.values, 1 ≤ p.2 := by
      intro p hp
      exact hpos p (hperm.mem_iff.mp hp)
    have hlen := quantiles_length d q hwf2 hq ht
    rcases hsort : sortKeys d.values with _ | ⟨⟨v, c⟩, rest⟩
    · exact absurd hsort hne
    · have hq0 : (d.quantiles q)[0]? = some v := by
        rw [FrequencyDistribution.quantiles, if_neg (by omega), hsort]
        simp
      have hboundary : ∀ k, 1 ≤ k → k ≤ q → (d.quantiles q)[k]? =
          firstGe (roundLimit d.total k q) 0 (sortKeys d.values) := by
        intro k h1 h2
        exact quantiles_char d q k hwf2 hq ht h1 h2
      have hbsome : ∀ k, 1 ≤ k → k ≤ q →
          ∃ w, (d.quantiles q)[k]? = some w ∧ w ∈ keysOf (sortKeys d.values) := by
        intro k h1 h2
        have hs := firstGe_isSome (roundLimit d.total k q) (sortKeys d.values) 0 hne
          (by rw [hsum]; have := roundLimit_le_total d.total q k hq h2; omega)
        obtain ⟨w, hw⟩ := Option.isSome_iff_exists.mp hs
        exact ⟨w, by rw [hboundary k h1 h2, hw], firstGe_mem _ _ _ _ hw⟩
      have hminle : ∀ x ∈ keysOf (sortKeys d.values), v ≤ x := by
        intro x hx
        rw [hsort] at hx
        simp only [keysOf, List.map_cons, List.mem_cons] at hx
        rcases hx with hx | hx
        · exact le_of_eq hx.symm
        · rw [hsort] at hpw
          simp only [keysOf, List.map_cons, List.pairwise_cons] at hpw
          exact hpw.1 x (by simpa [keysOf] using hx)
      refine ⟨hlen, ?_, ?_, ?_⟩
      · rw [List.chain'_iff_get]
        intro i hi
        rw [hlen] at hi
        simp only [Nat.add_sub_cancel] at hi
        have hget : ∀ (j : Nat) (hj : j < (d.quantiles q).length),
            (d.quantiles q)[j]? = some ((d.quantiles q).get ⟨j, hj⟩) := by
          intro j hj
          rw [List.getElem?_eq_getElem hj]
          simp
        have hj1 : i < (d.quantiles q).length := by omega
        have hj2 : i + 1 < (d.quantiles q).length := by omega
        rcases Nat.eq_zero_or_pos i with hi0 | hipos
        · subst hi0
          obtain ⟨w, hw, hwmem⟩ := hbsome 1 (le_refl 1) hq
          have e1 : (d.quantiles q).get ⟨0, hj1⟩ = v := by
            have := hget 0 hj1
            rw [hq0] at this
            exact (Option.some.inj this).symm
          have e2 : (d.quantiles q).get ⟨1, hj2⟩ = w := by
            have := hget 1 hj2
            rw [hw] at this
            exact (Option.some.inj this).symm
          rw [e1, e2]
          exact hminle w hwmem
        · obtain ⟨w1, hw1, _⟩ := hbsome i hipos (by omega)
          obtain ⟨w2, hw2, _⟩ := hbsome (i + 1) (by omega) (by omega)
          have e1 : (d.quantiles q).get ⟨i, hj1⟩ = w1 := by
            have := hget i hj1
            rw [hw1] at this
            exact (Option.some.inj this).symm
          have e2 : (d.quantiles q).get ⟨i + 1, hj2⟩ = w2 := by
            have := hget (i + 1) hj2
            rw [hw2] at this
            exact (Option.some.inj this).symm
          rw [e1, e2]
          have hf1 : firstGe (roundLimit d.total i q) 0 (sortKeys d.values) = some w1 := by
            rw [← hboundary i hipos (by omega)]
            exact hw1
          have hf2 : firstGe (roundLimit d.total (i + 1) q) 0 (sortKeys d.values)
              = some w2 := by
            rw [← hboundary (i + 1) (by omega) (by omega)]
            exact hw2
          exact firstGe_mono _ _ (roundLimit_mono d.total q i (i + 1) (by omega))
            _ 0 w1 w2 hpw hf1 hf2
      · refine ⟨v, hq0, ?_, ?_⟩
        · have : v ∈ keysOf (sortKeys d.values) := by
            rw [hsort]
            simp [keysOf]
          exact hkeysperm.mem_iff.mp this
        · intro x hx
          exact hminle x (hkeysperm.mem_iff.mpr hx)
      · have hlimq : roundLimit d.total q q = d.total := roundLimit_total d.total q hq
        have hlast : firstGe d.total 0 (sortKeys d.values)
            = some (lastKeyD (sortKeys d.values) v) := by
          apply firstGe_last d.total v (sortKeys d.values) 0 hne
          · intro pp qq hsplit hnepp hneqq
            have hposqq : ∀ p ∈ qq, 1 ≤ p.2 := by
              intro p hp
              exact hposs p (by rw [hsplit]; exact List.mem_append_right pp hp)
            have hqq1 := sumCounts_pos_of_mem qq hposqq hneqq
            have : sumCounts (sortKeys d.values) = sumCounts pp + sumCounts qq := by
              rw [hsplit, sumCounts_append]
            omega
          · omega
        refine ⟨lastKeyD (sortKeys d.values) v, ?_, ?_, ?_⟩
        · rw [hboundary q hq (le_refl q), hlimq]
          exact hlast
        · exact hkeysperm.mem_iff.mp (lastKeyD_mem _ v hne)
        · intro x hx
          exact le_lastKeyD _ v hpw x (hkeysperm.mem_iff.mpr hx)

/-- Witness for C3 on the distribution `{1:3, 2:1, 5:2}` with `q = 4`. -/
theorem c3_quantiles_shape_witness :
    ((4 = 0 ∨ exDist.total = 0) → exDist.quantiles 4 = []) ∧
    (1 ≤ 4 → 1 ≤ exDist.total →
      (exDist.quantiles 4).length = 4 + 1 ∧
      (exDist.quantiles 4).Chain' (· ≤ ·) ∧
      (∃ m, (exDist.quantiles 4)[0]? = some m ∧ m ∈ keysOf exDist.values ∧
        ∀ x ∈ keysOf exDist.values, m ≤ x) ∧
      (∃ M, (exDist.quantiles 4)[4]? = some M ∧ M ∈ keysOf exDist.values ∧
        ∀ x ∈ keysOf exDist.values, x ≤ M)) :=
  c3_quantiles_shape exDist 4 (by decide)

open FrequencyDistribution in
/-- C7: the `quartiles` rendering applied to each stitching-statistics
metric produces the five boundary values `quantiles(4)` (min, p25, p50,
p75, max) followed by the total, each right-aligned in a 7-column field
and joined by `" | "`; for an empty distribution the five boundary
fields hold `"-"` (and the total field holds 0). -/
theorem c7_stats_rendering (hist : FrequencyDistribution Nat) (hwf : Wf hist) :
    (hist.total = 0 →
      quartiles hist =
        joinBar (List.replicate 5 (rightAlign 7 ("-")) ++
          [rightAlign 7 (toString (0 : Nat))])) ∧
    (1 ≤ hist.total →
      ∃ a b c d e, hist.quantiles 4 = [a, b, c, d, e] ∧
        quartiles hist =
          joinBar ([a, b, c, d, e].map (fun x => rightAlign 7 (toString x)) ++
            [rightAlign 7 (toString hist.total)])) := by
  constructor
  · intro h0
    have hq : hist.quantiles 4 = [] := by
      rw [FrequencyDistribution.quantiles, if_pos (Or.inr h0)]
    simp [quartiles, hq, joinBar, List.replicate, String.append_assoc]
  · intro h1
    have hlen : (hist.quantiles 4).length = 5 :=
      quantiles_length hist 4 hwf (by omega) h1
    obtain ⟨a, b, c, d, e, hq⟩ : ∃ a b c d e,
        hist.quantiles 4 = [a, b, c, d, e] := by
      rcases hl : hist.quantiles 4 with _ | ⟨x1, l1⟩
      · rw [hl] at hlen; simp at hlen
      rcases l1 with _ | ⟨x2, l2⟩
      · rw [hl] at hlen; simp at hlen
      rcases l2 with _ | ⟨x3, l3⟩
      · rw [hl] at hlen; simp at hlen
      rcases l3 with _ | ⟨x4, l4⟩
      · rw [hl] at hlen; simp at hlen
      rcases l4 with _ | ⟨x5, l5⟩
      · rw [hl] at hlen; simp at hlen
      rcases l5 with _ | ⟨x6, l6⟩
      · exact ⟨x1, x2, x3, x4, x5, rfl⟩
      · rw [hl] at hlen; simp at hlen
    refine ⟨a, b, c, d, e, hq, ?_⟩
    simp [quartiles, hq, joinBar, String.append_assoc]

/-- Witness for C7 on the distribution `{1:3, 2:1, 5:2}`. -/
theorem c7_stats_rendering_witness :
    (exDist.total = 0 →
      quartiles exDist =
        joinBar (List.replicate 5 (rightAlign 7 ("-")) ++
          [rightAlign 7 (toString (0 : Nat))])) ∧
    (1 ≤ exDist.total →
      ∃ a b c d e, exDist.quantiles 4 = [a, b, c, d, e] ∧
        quartiles exDist =
          joinBar ([a, b, c, d, e].map (fun x => rightAlign 7 (toString x)) ++
            [rightAlign 7 (toString exDist.total)])) :=
  c7_stats_rendering exDist (by decide)

end StackGraphs
